import Mathlib

/-!
Shallow embedding of `deploy_pipeline/pipeline/config.py`.

The Python module defines three classes — `Job`, `Pipeline`, `Stage` — plus an
exception taxonomy.  We model:

* a Python `dict`/`defaultdict(list)` as an insertion-ordered association list
  with unique keys (`JobDict`); `defaultdict` item access inserts a missing key
  with an empty list, which we model explicitly because it is an observable
  mutation (`defaultGet`);
* a Python `set` of strings as a list with membership-checked insertion
  (`setAdd`); only membership is ever observed;
* a raised exception as an `Err` value.  Methods that may raise and also mutate
  `self` return `Option Err × Pipeline`: the second component is the object
  state at the moment of return or raise (the source raises before any
  mutation, which the translation reflects statement by statement);
* generators as eagerly materialised lists; where producing the sequence
  mutates state (the `defaultdict` access in `get_jobs_by_phase`), the function
  returns the produced list together with the post-iteration state.
-/

namespace DeployPipeline

/-- The exceptions the module can raise while running the modelled code paths:
`JobException`, `InvalidPhaseException`, `DuplicatePhaseException`, and a
Python `NameError` (raised when an expression references an unbound name). -/
inductive Err where
  | jobException (msg : String)
  | invalidPhaseException (msg : String)
  | duplicatePhaseException (msg : String)
  | nameError (unboundName : String)
  deriving DecidableEq, Repr

/-- Model of `class Job`: `_job_name`, `phase`, `template`, `var_key`, `host_selectors`,
`package_selectors`.  Selector elements are opaque to the core; we model them
as strings. -/
structure Job where
  jobName : String
  phase : String
  template : String
  varKey : Option String
  hostSelectors : List String
  packageSelectors : List String
  deriving DecidableEq, Repr

/-- Model of `Job.__init__(self, job_name, phase_name)`: raises
`JobException('Job Name is Required')` when `not job_name` — for a Python
string this is true exactly when the string is empty — and otherwise
initialises `template` to `""`, `var_key` to `None` and both selector lists
to `[]`. -/
def Job.new (job_name : String) (phase_name : String) : Except Err Job :=
  if job_name = "" then
    .error (.jobException "Job Name is Required")
  else
    .ok { jobName := job_name, phase := phase_name, template := "",
          varKey := none, hostSelectors := [], packageSelectors := [] }

/-- Model of `self._job_phase`: a `defaultdict(list)` mapping phase name to the list of
jobs registered under it, keys in insertion order, unique. -/
abbrev JobDict := List (String × List Job)

/-- Model of `d[k]` on a plain dict view: the value stored under the first (only) entry
with key `k`, or `[]` when no entry exists.  Used to state what a key maps to;
the mutating `defaultdict` access is `defaultGet`. -/
def dictGet (d : JobDict) (k : String) : List Job :=
  match d with
  | [] => []
  | (k', v) :: rest => if k' = k then v else dictGet rest k

/-- Model of `k in d`: whether the dict has an entry for key `k`. -/
def dictHasKey (d : JobDict) (k : String) : Bool :=
  match d with
  | [] => false
  | (k', _) :: rest => k' = k || dictHasKey rest k

/-- Model of `d[k]` on a `defaultdict(list)`: returns the stored list, inserting a new
entry `k ↦ []` (at the end, in key-insertion order) when `k` is absent.
Returns the obtained list together with the possibly-enlarged dict. -/
def defaultGet (d : JobDict) (k : String) : List Job × JobDict :=
  match d with
  | [] => ([], [(k, [])])
  | (k', v) :: rest =>
    if k' = k then (v, (k', v) :: rest)
    else
      let r := defaultGet rest k
      (r.1, (k', v) :: r.2)

/-- Model of `d[k].append(j)` on a `defaultdict(list)`: appends `j` to the list stored
under `k`, creating the entry `k ↦ [j]` at the end when `k` is absent. -/
def dictAppend (d : JobDict) (k : String) (j : Job) : JobDict :=
  match d with
  | [] => [(k, [j])]
  | (k', v) :: rest =>
    if k' = k then (k', v ++ [j]) :: rest
    else (k', v) :: dictAppend rest k j

/-- Model of `s.add(n)` on a Python set modelled as a duplicate-free list: membership is
the only observed property. -/
def setAdd (s : List String) (n : String) : List String :=
  if n ∈ s then s else s ++ [n]

/-- Model of `class Pipeline`: `_job_name_cache` (set), `_job_phase`
(`defaultdict(list)`), `template`, `_phases` (ordered list).
`host_order_label` is declared but never assigned by `__init__` and no claim
touches it, so it is omitted. -/
structure Pipeline where
  jobNameCache : List String
  jobPhase : JobDict
  template : String
  phases : List String
  deriving DecidableEq, Repr

/-- Model of `Pipeline.__init__`: empty cache, empty job dict, empty template, no
phases. -/
def Pipeline.new : Pipeline :=
  { jobNameCache := [], jobPhase := [], template := "", phases := [] }

/-- Model of `Pipeline.add_job(self, job)`: raises
`JobException(f'Duplicate Job Name: {job.name}')` when the name is cached,
then raises `InvalidPhaseException(f'Invalid Phase Name: {job.phase}')` when
the phase is not declared, and only then mutates: adds the name to the cache
and appends the job to `_job_phase[job.phase]`. -/
def Pipeline.add_job (p : Pipeline) (job : Job) : Option Err × Pipeline :=
  if job.jobName ∈ p.jobNameCache then
    (some (.jobException ("Duplicate Job Name: " ++ job.jobName)), p)
  else if job.phase ∉ p.phases then
    (some (.invalidPhaseException ("Invalid Phase Name: " ++ job.phase)), p)
  else
    (none, { p with jobNameCache := setAdd p.jobNameCache job.jobName,
                    jobPhase := dictAppend p.jobPhase job.phase job })

/-- Model of `Pipeline.get_jobs_by_phase(self, phase_name)`:
`yield from self._job_phase[phase_name]`.  The `defaultdict` item access
inserts an empty entry when the phase has none, so the method returns both the
yielded jobs and the post-call pipeline state. -/
def Pipeline.get_jobs_by_phase (p : Pipeline) (phase_name : String) :
    List Job × Pipeline :=
  let r := defaultGet p.jobPhase phase_name
  (r.1, { p with jobPhase := r.2 })

/-- Model of `Pipeline.get_jobs(self)`: iterates `self._job_phase.items()` — keys in
dict insertion order — yielding each phase's jobs in list order.  No
mutation. -/
def Pipeline.get_jobs (p : Pipeline) : List Job :=
  (p.jobPhase.map Prod.snd).flatten

/-- Model of `Pipeline.add_phase(self, phase_name)`: when the name is already present
the method executes `raise DuplicatePhaseException(f'... {phase.name}')`, but
the f-string references `phase`, a name bound nowhere in that scope (the
parameter is `phase_name` and the module has no global `phase`), so Python
raises `NameError: name 'phase' is not defined` while building the message,
before the `DuplicatePhaseException` is constructed.  Otherwise the name is
appended to `_phases`. -/
def Pipeline.add_phase (p : Pipeline) (phase_name : String) :
    Option Err × Pipeline :=
  if phase_name ∈ p.phases then
    (some (.nameError "phase"), p)
  else
    (none, { p with phases := p.phases ++ [phase_name] })

/-- Model of `Pipeline.get_phases(self)`: `yield from self._phases`. -/
def Pipeline.get_phases (p : Pipeline) : List String :=
  p.phases

/-- Model of `class Stage`: holds the pipeline reference and the sorted ordering
groups.  The ordering-group element type is any type Python can sort and
stringify; we parametrise over it. -/
structure Stage (α : Type) where
  pipeline : Pipeline
  orderGroups : List α

/-- Model of `sorted(order_groups, reverse=reverse)`: Python's stable sort by the
natural order.  Under a linear order the sorted permutation is unique, so
insertion sort gives the same list. -/
def pySorted {α : Type} [LinearOrder α] (reverse : Bool) (l : List α) :
    List α :=
  if reverse then l.insertionSort (fun a b => b ≤ a)
  else l.insertionSort (fun a b => a ≤ b)

/-- Model of `Stage.__init__(self, pipeline, order_groups, reverse=False)`: stores the
pipeline and `sorted(order_groups, reverse=reverse)`. -/
def Stage.new {α : Type} [LinearOrder α] (pipeline : Pipeline)
    (order_groups : List α) (reverse : Bool) : Stage α :=
  { pipeline := pipeline, orderGroups := pySorted reverse order_groups }

/-- Model of `Stage._get_stages(self)`: for `stage, phase_name` in
`product(self._order_groups, self._pipeline.get_phases())`, yields
`(stage, phase_name, f'{stage}-{phase_name}')`.  `sg` models Python's
`str()` applied to an ordering group inside the f-string. -/
def Stage.get_stages_internal {α : Type} (sg : α → String) (s : Stage α) :
    List (α × String × String) :=
  s.orderGroups.flatMap fun g =>
    s.pipeline.get_phases.map fun ph => (g, ph, sg g ++ "-" ++ ph)

/-- Model of `Stage.get_stages(self)`: yields the third component of each
`_get_stages` tuple. -/
def Stage.get_stages {α : Type} (sg : α → String) (s : Stage α) :
    List String :=
  (s.get_stages_internal sg).map fun t => t.2.2

/-- Recursion for `get_stage_jobs`: for each `_get_stages` tuple, yield one
tuple per job of `get_jobs_by_phase(phase_name)`, threading the pipeline
state mutated by the `defaultdict` access. -/
def stageJobsAux {α : Type} (pl : Pipeline) :
    List (α × String × String) → List (α × String × String × Job) × Pipeline
  | [] => ([], pl)
  | (g, ph, sn) :: rest =>
    let r := pl.get_jobs_by_phase ph
    let rec' := stageJobsAux r.2 rest
    (r.1.map (fun j => (g, ph, sn, j)) ++ rec'.1, rec'.2)

/-- Model of `Stage.get_stage_jobs(self)`: for each `_get_stages` tuple
`(stage, phase_name, stage_name)` and each job in
`self._pipeline.get_jobs_by_phase(phase_name)` yields
`(stage, phase_name, stage_name, job)`.  Returns the yielded list and the
stage as it stands after the generator is exhausted (its pipeline may have
gained empty `defaultdict` entries). -/
def Stage.get_stage_jobs {α : Type} (sg : α → String) (s : Stage α) :
    List (α × String × String × Job) × Stage α :=
  let r := stageJobsAux s.pipeline (s.get_stages_internal sg)
  (r.1, { s with pipeline := r.2 })

/-- Convenience constructor for concrete test jobs, mirroring what
`load_pipeline_from_config` builds before `add_job` (template and `var_key`
left at their post-`__init__` values). -/
def mkJob (n ph : String) : Job :=
  { jobName := n, phase := ph, template := "", varKey := none,
    hostSelectors := [], packageSelectors := [] }

/-- Pipelines reachable by `Pipeline()` followed by any sequence of successful
`add_phase` / `add_job` calls. -/
inductive Built : Pipeline → Prop where
  | new : Built Pipeline.new
  | addPhase (p : Pipeline) (n : String) : Built p →
      (p.add_phase n).1 = none → Built (p.add_phase n).2
  | addJob (p : Pipeline) (j : Job) : Built p →
      (p.add_job j).1 = none → Built (p.add_job j).2

/-! ### Dictionary lemmas -/

theorem defaultGet_fst (d : JobDict) (k : String) :
    (defaultGet d k).1 = dictGet d k := by
  induction d with
  | nil => simp [defaultGet, dictGet]
  | cons kv rest ih =>
    obtain ⟨ka, v⟩ := kv
    by_cases h : ka = k <;> simp [defaultGet, dictGet, h, ih]

theorem dictGet_defaultGet (d : JobDict) (k k' : String) :
    dictGet (defaultGet d k).2 k' = dictGet d k' := by
  induction d with
  | nil => by_cases h : k = k' <;> simp [defaultGet, dictGet, h]
  | cons kv rest ih =>
    obtain ⟨ka, v⟩ := kv
    by_cases h : ka = k
    · simp [defaultGet, h]
    · by_cases h2 : ka = k'
      · subst h2
        simp [defaultGet, dictGet, h, ih]
      · simp [defaultGet, dictGet, h, h2, ih]

theorem dictGet_dictAppend_self (d : JobDict) (k : String) (j : Job) :
    dictGet (dictAppend d k j) k = dictGet d k ++ [j] := by
  induction d with
  | nil => simp [dictAppend, dictGet]
  | cons kv rest ih =>
    obtain ⟨ka, v⟩ := kv
    by_cases h : ka = k <;> simp [dictAppend, dictGet, h, ih]

theorem dictGet_dictAppend_ne (d : JobDict) (k ph : String) (j : Job)
    (h : ph ≠ k) : dictGet (dictAppend d k j) ph = dictGet d ph := by
  induction d with
  | nil => simp [dictAppend, dictGet, Ne.symm h]
  | cons kv rest ih =>
    obtain ⟨ka, v⟩ := kv
    by_cases h2 : ka = k
    · subst h2
      simp [dictAppend, dictGet, Ne.symm h]
    · by_cases h3 : ka = ph
      · subst h3
        simp [dictAppend, dictGet, h, h2]
      · simp [dictAppend, dictGet, h2, h3, ih]

/-! ### Claim theorems -/

/-- C1: the claim says a duplicate `add_phase` raises the DuplicatePhase
error.  In the source the raise statement's f-string reads `phase.name`, an
unbound name, so the call raises `NameError` instead: evaluating the code at
the failing input (declare phase "build", declare "build" again) produces the
`NameError`, not a `DuplicatePhaseException`. -/
theorem C1_duplicate_phase_raises_name_error :
    ((Pipeline.new.add_phase "build").2.add_phase "build").1
      = some (Err.nameError "phase") := by decide

/-- C3 counterexample: the claim says construction fails when the name is
blank (whitespace-only), but `Job(" ", "partition")` succeeds — Python's
`not job_name` is false for a nonempty whitespace string. -/
theorem C3_blank_name_accepted :
    Job.new " " "partition" = Except.ok (mkJob " " "partition") := rfl

/-- C3 (amended): constructing a Job fails with the EmptyName error iff the
name is the empty string (whitespace-only names are accepted); construction
with a non-empty name succeeds, and no Job produced by the constructor has an
empty name. -/
theorem C3_empty_name_rejected (name ph : String) :
    (Job.new name ph = Except.error (Err.jobException "Job Name is Required")
        ↔ name = "")
    ∧ (name ≠ "" → Job.new name ph = Except.ok (mkJob name ph))
    ∧ (∀ j : Job, Job.new name ph = Except.ok j → j.jobName ≠ "") := by
  by_cases h : name = "" <;> simp [Job.new, mkJob, h]

/-- C3 witness: the empty name is rejected with the EmptyName error and a
concrete non-empty name is accepted. -/
theorem C3_empty_name_rejected_witness :
    Job.new "" "p" = Except.error (Err.jobException "Job Name is Required")
    ∧ Job.new "x" "p" = Except.ok (mkJob "x" "p") :=
  ⟨(C3_empty_name_rejected "" "p").1.mpr rfl,
   (C3_empty_name_rejected "x" "p").2.1 (by decide)⟩

/-- C6: `add_job` fails with the DuplicateName error when the job's name is
already registered anywhere in the pipeline, fails with the InvalidPhase
error when its phase is not declared, and otherwise succeeds, recording the
name for uniqueness and appending the job to its phase's job list (leaving
every other phase's list and the phase list itself unchanged). -/
theorem C6_add_job_contract (p : Pipeline) (j : Job) :
    (j.jobName ∈ p.jobNameCache →
      p.add_job j
        = (some (Err.jobException ("Duplicate Job Name: " ++ j.jobName)), p))
    ∧ (j.jobName ∉ p.jobNameCache → j.phase ∉ p.phases →
      p.add_job j
        = (some (Err.invalidPhaseException ("Invalid Phase Name: " ++ j.phase)),
           p))
    ∧ (j.jobName ∉ p.jobNameCache → j.phase ∈ p.phases →
      (p.add_job j).1 = none
      ∧ j.jobName ∈ (p.add_job j).2.jobNameCache
      ∧ dictGet (p.add_job j).2.jobPhase j.phase
          = dictGet p.jobPhase j.phase ++ [j]
      ∧ (∀ ph, ph ≠ j.phase →
          dictGet (p.add_job j).2.jobPhase ph = dictGet p.jobPhase ph)
      ∧ (p.add_job j).2.phases = p.phases) := by
  refine ⟨fun h1 => ?_, fun h1 h2 => ?_, fun h1 h2 => ?_⟩
  · simp [Pipeline.add_job, h1]
  · simp [Pipeline.add_job, h1, h2]
  · have hadd : p.add_job j
        = (none, { p with jobNameCache := setAdd p.jobNameCache j.jobName,
                          jobPhase := dictAppend p.jobPhase j.phase j }) := by
      simp [Pipeline.add_job, h1, h2]
    refine ⟨by simp [hadd], ?_, ?_, ?_, by simp [hadd]⟩
    · simp [hadd, setAdd, h1]
    · simp [hadd, dictGet_dictAppend_self]
    · intro ph hph
      simp [hadd, dictGet_dictAppend_ne _ _ _ _ hph]

/-- C6 witness: a duplicate name is rejected, an undeclared phase is
rejected, and a fresh job under a declared phase is accepted and stored. -/
theorem C6_add_job_contract_witness :
    (Pipeline.mk ["x"] [("A", [mkJob "x" "A"])] "" ["A"]).add_job
        (mkJob "x" "B")
      = (some (Err.jobException ("Duplicate Job Name: " ++ "x")),
         Pipeline.mk ["x"] [("A", [mkJob "x" "A"])] "" ["A"])
    ∧ (Pipeline.mk [] [] "" ["A"]).add_job (mkJob "y" "B")
      = (some (Err.invalidPhaseException ("Invalid Phase Name: " ++ "B")),
         Pipeline.mk [] [] "" ["A"])
    ∧ ((Pipeline.mk [] [] "" ["A"]).add_job (mkJob "y" "A")).1 = none :=
  ⟨(C6_add_job_contract _ (mkJob "x" "B")).1 (by decide),
   (C6_add_job_contract _ (mkJob "y" "B")).2.1 (by decide) (by decide),
   ((C6_add_job_contract _ (mkJob "y" "A")).2.2 (by decide) (by decide)).1⟩

/-- C7: whenever `add_phase` or `add_job` fails, the observable pipeline
state — the sequences produced by `get_phases`, `get_jobs`, and
`get_jobs_by_phase` for every phase name — is unchanged: both methods raise
before performing any mutation. -/
theorem C7_failed_call_preserves_state (p : Pipeline) (n : String) (j : Job) :
    ((p.add_phase n).1 ≠ none →
      (p.add_phase n).2.get_phases = p.get_phases
      ∧ (p.add_phase n).2.get_jobs = p.get_jobs
      ∧ ∀ ph, ((p.add_phase n).2.get_jobs_by_phase ph).1
          = (p.get_jobs_by_phase ph).1)
    ∧ ((p.add_job j).1 ≠ none →
      (p.add_job j).2.get_phases = p.get_phases
      ∧ (p.add_job j).2.get_jobs = p.get_jobs
      ∧ ∀ ph, ((p.add_job j).2.get_jobs_by_phase ph).1
          = (p.get_jobs_by_phase ph).1) := by
  constructor
  · intro h
    by_cases hc : n ∈ p.phases
    · simp [Pipeline.add_phase, hc]
    · simp [Pipeline.add_phase, hc] at h
  · intro h
    by_cases h1 : j.jobName ∈ p.jobNameCache
    · simp [Pipeline.add_job, h1]
    · by_cases h2 : j.phase ∈ p.phases
      · simp [Pipeline.add_job, h1, h2] at h
      · simp [Pipeline.add_job, h1, h2]

/-- C7 witness: after a failed duplicate `add_phase` and a failed
invalid-phase `add_job` on the one-phase pipeline, the observable sequences
are those of the original pipeline. -/
theorem C7_failed_call_preserves_state_witness :
    ((Pipeline.new.add_phase "a").2.add_phase "a").2.get_phases
      = (Pipeline.new.add_phase "a").2.get_phases
    ∧ (((Pipeline.new.add_phase "a").2.add_job
          (mkJob "x" "zzz")).2.get_jobs_by_phase "a").1
      = ((Pipeline.new.add_phase "a").2.get_jobs_by_phase "a").1 :=
  ⟨((C7_failed_call_preserves_state (Pipeline.new.add_phase "a").2 "a"
      (mkJob "x" "zzz")).1 (by decide)).1,
   (((C7_failed_call_preserves_state (Pipeline.new.add_phase "a").2 "a"
      (mkJob "x" "zzz")).2 (by decide)).2.2 "a")⟩

/-- C10: when a job's name is already registered and its phase is also not
declared, `add_job` raises the duplicate-name error — the name check runs
before the phase check. -/
theorem C10_duplicate_name_checked_first (p : Pipeline) (j : Job)
    (h1 : j.jobName ∈ p.jobNameCache) (_h2 : j.phase ∉ p.phases) :
    (p.add_job j).1
      = some (Err.jobException ("Duplicate Job Name: " ++ j.jobName)) := by
  simp [Pipeline.add_job, h1]

/-! ### Invariants of pipelines built through the public methods -/

theorem dictGet_not_key (d : JobDict) (k : String)
    (h : k ∉ d.map Prod.fst) : dictGet d k = [] := by
  induction d with
  | nil => rfl
  | cons kv rest ih =>
    simp only [List.map_cons, List.mem_cons] at h
    push_neg at h
    simp [dictGet, Ne.symm h.1, ih h.2]

theorem mem_keys_dictAppend (d : JobDict) (k : String) (j : Job)
    (k' : String) :
    k' ∈ (dictAppend d k j).map Prod.fst
      ↔ k' ∈ d.map Prod.fst ∨ k' = k := by
  induction d with
  | nil => simp [dictAppend]
  | cons kv rest ih =>
    obtain ⟨ka, v⟩ := kv
    by_cases h : ka = k <;> simp [dictAppend, h, ih] <;> tauto

theorem keys_nodup_dictAppend (d : JobDict) (k : String) (j : Job)
    (h : (d.map Prod.fst).Nodup) :
    ((dictAppend d k j).map Prod.fst).Nodup := by
  induction d with
  | nil => simp [dictAppend]
  | cons kv rest ih =>
    obtain ⟨ka, v⟩ := kv
    simp only [List.map_cons, List.nodup_cons] at h
    by_cases hk : ka = k
    · subst hk
      simpa [dictAppend] using h
    · simp only [dictAppend, if_neg hk, List.map_cons, List.nodup_cons]
      refine ⟨?_, ih h.2⟩
      rw [mem_keys_dictAppend]
      rintro (hm | hm)
      · exact h.1 hm
      · exact hk hm

theorem vals_phase_dictAppend (d : JobDict) (j : Job)
    (h : ∀ kv ∈ d, ∀ x ∈ kv.2, x.phase = kv.1) :
    ∀ kv ∈ dictAppend d j.phase j, ∀ x ∈ kv.2, x.phase = kv.1 := by
  induction d with
  | nil =>
    intro kv hkv x hx
    simp [dictAppend] at hkv
    subst hkv
    simp at hx
    subst hx
    rfl
  | cons kv0 rest ih =>
    obtain ⟨ka, v⟩ := kv0
    have hhead : ∀ x ∈ v, x.phase = ka := fun x hx => h (ka, v) (by simp) x hx
    have hrest : ∀ kv ∈ rest, ∀ x ∈ kv.2, x.phase = kv.1 :=
      fun kv hkv => h kv (by simp [hkv])
    intro kv hkv x hx
    by_cases hk : ka = j.phase
    · subst hk
      simp [dictAppend] at hkv
      rcases hkv with hkv | hkv
      · subst hkv
        simp at hx
        rcases hx with hx | hx
        · exact hhead x hx
        · subst hx
          rfl
      · exact hrest kv hkv x hx
    · simp [dictAppend, hk] at hkv
      rcases hkv with hkv | hkv
      · subst hkv
        exact hhead x hx
      · exact ih hrest kv hkv x hx

/-- The invariants every pipeline reachable through `Pipeline()`,
`add_phase` and `add_job` satisfies: duplicate-free phases, duplicate-free
job-dict keys, every key a declared phase, and every stored job keyed by its
own phase. -/
structure PipelineInv (p : Pipeline) : Prop where
  phases_nodup : p.phases.Nodup
  keys_nodup : (p.jobPhase.map Prod.fst).Nodup
  keys_sub : ∀ k ∈ p.jobPhase.map Prod.fst, k ∈ p.phases
  vals_phase : ∀ kv ∈ p.jobPhase, ∀ x ∈ kv.2, x.phase = kv.1

theorem built_inv (p : Pipeline) (h : Built p) : PipelineInv p := by
  induction h with
  | new =>
    exact ⟨List.nodup_nil, List.nodup_nil, by simp [Pipeline.new],
           by simp [Pipeline.new]⟩
  | addPhase p n hb hok ih =>
    have hc : n ∉ p.phases := by
      intro hc
      simp [Pipeline.add_phase, hc] at hok
    have h2 : (p.add_phase n).2
        = { p with phases := p.phases ++ [n] } := by
      simp [Pipeline.add_phase, hc]
    rw [h2]
    refine ⟨?_, ih.keys_nodup, ?_, ih.vals_phase⟩
    · simp [List.nodup_append, ih.phases_nodup, hc]
    · intro k hk
      simp [ih.keys_sub k hk]
  | addJob p j hb hok ih =>
    have h1 : j.jobName ∉ p.jobNameCache := by
      intro h1
      simp [Pipeline.add_job, h1] at hok
    have h2 : j.phase ∈ p.phases := by
      by_contra h2
      simp [Pipeline.add_job, h1, h2] at hok
    have h3 : (p.add_job j).2
        = { p with jobNameCache := setAdd p.jobNameCache j.jobName,
                   jobPhase := dictAppend p.jobPhase j.phase j } := by
      simp [Pipeline.add_job, h1, h2]
    rw [h3]
    refine ⟨ih.phases_nodup, keys_nodup_dictAppend _ _ _ ih.keys_nodup,
            ?_, vals_phase_dictAppend _ _ ih.vals_phase⟩
    intro k hk
    rw [mem_keys_dictAppend] at hk
    rcases hk with hk | hk
    · exact ih.keys_sub k hk
    · subst hk
      exact h2

/-- Filtering the `get_jobs` concatenation down to one phase recovers exactly
that phase's stored job list, provided keys are unique and every stored job
is keyed by its own phase. -/
theorem filter_phase_flatten (ph : String) :
    ∀ d : JobDict, (d.map Prod.fst).Nodup →
    (∀ kv ∈ d, ∀ x ∈ kv.2, x.phase = kv.1) →
    ((d.map Prod.snd).flatten).filter (fun j => j.phase == ph)
      = dictGet d ph := by
  intro d
  induction d with
  | nil =>
    intro _ _
    simp [dictGet]
  | cons kv rest ih =>
    obtain ⟨ka, v⟩ := kv
    intro hnd hv
    simp only [List.map_cons, List.nodup_cons] at hnd
    have hhead : ∀ x ∈ v, x.phase = ka := fun x hx => hv (ka, v) (by simp) x hx
    have hrest : ∀ kv ∈ rest, ∀ x ∈ kv.2, x.phase = kv.1 :=
      fun kv hkv => hv kv (by simp [hkv])
    have hih := ih hnd.2 hrest
    by_cases h : ka = ph
    · subst h
      have hveq : v.filter (fun j => j.phase == ka) = v :=
        List.filter_eq_self.mpr fun x hx => by simp [hhead x hx]
      have hnil : dictGet rest ka = [] := dictGet_not_key rest ka hnd.1
      simp [dictGet, hveq, hih, hnil]
    · have hveq : v.filter (fun j => j.phase == ph) = [] := by
        rw [List.filter_eq_nil_iff]
        intro x hx
        simp [hhead x hx, h]
      simp [dictGet, h, hveq, hih]

/-- Over a list of phases avoiding key `ka`, lookups ignore a leading
`(ka, v)` entry. -/
theorem flatMap_dictGet_cons (ka : String) (v : List Job) (rest : JobDict) :
    ∀ A : List String, ka ∉ A →
    (A.flatMap fun ph => dictGet ((ka, v) :: rest) ph)
      = A.flatMap fun ph => dictGet rest ph := by
  intro A
  induction A with
  | nil => intro _; rfl
  | cons a A ih =>
    intro h
    simp only [List.mem_cons] at h
    push_neg at h
    rw [List.flatMap_cons, List.flatMap_cons, ih h.2]
    have hda : dictGet ((ka, v) :: rest) a = dictGet rest a := by
      simp [dictGet, h.1]
    rw [hda]

/-- With duplicate-free keys, flattening the dict values equals
concatenating the per-key lookups over the keys in their stored
(insertion) order. -/
theorem flatten_eq_keys_flatMap :
    ∀ d : JobDict, (d.map Prod.fst).Nodup →
    (d.map Prod.snd).flatten
      = (d.map Prod.fst).flatMap fun k => dictGet d k := by
  intro d
  induction d with
  | nil =>
    intro _
    rfl
  | cons kv rest ih =>
    obtain ⟨ka, v⟩ := kv
    intro hnd
    simp only [List.map_cons, List.nodup_cons] at hnd
    simp only [List.map_cons, List.flatMap_cons, List.flatten_cons]
    have h1 : dictGet ((ka, v) :: rest) ka = v := by simp [dictGet]
    rw [h1, flatMap_dictGet_cons ka v rest _ hnd.1, ← ih hnd.2]

/-- The flattened job-dict values are a permutation of the
declaration-ordered per-phase lookups, whenever the phase list is
duplicate-free and covers the duplicate-free keys. -/
theorem perm_decl_order (phases : List String) (hnd : phases.Nodup) :
    ∀ d : JobDict, (d.map Prod.fst).Nodup →
    (∀ k ∈ d.map Prod.fst, k ∈ phases) →
    List.Perm ((d.map Prod.snd).flatten)
      (phases.flatMap fun ph => dictGet d ph) := by
  intro d
  induction d with
  | nil =>
    intro _ _
    simp [dictGet]
  | cons kv rest ih =>
    obtain ⟨ka, v⟩ := kv
    intro hknd hsub
    simp only [List.map_cons, List.nodup_cons] at hknd
    have hka : ka ∈ phases := hsub ka (by simp)
    have hsub' : ∀ k ∈ rest.map Prod.fst, k ∈ phases :=
      fun k hk => hsub k (by simp [hk])
    have hih := ih hknd.2 hsub'
    obtain ⟨A, B, hAB⟩ := List.append_of_mem hka
    have hmid : (ka :: (A ++ B)).Nodup := List.nodup_middle.mp (hAB ▸ hnd)
    rw [List.nodup_cons, List.mem_append] at hmid
    push_neg at hmid
    have hkaA : ka ∉ A := hmid.1.1
    have hkaB : ka ∉ B := hmid.1.2
    have hGka : dictGet rest ka = [] := dictGet_not_key rest ka hknd.1
    rw [hAB] at hih ⊢
    rw [List.flatMap_append, List.flatMap_cons] at hih ⊢
    rw [flatMap_dictGet_cons ka v rest A hkaA,
        flatMap_dictGet_cons ka v rest B hkaB]
    rw [hGka] at hih
    have hdg : dictGet ((ka, v) :: rest) ka = v := by simp [dictGet]
    rw [hdg]
    simp only [List.map_cons, List.flatten_cons, List.nil_append] at hih ⊢
    exact (hih.append_left v).trans (List.perm_append_comm_assoc v _ _)

/-! ### Stage expansion lemmas -/

theorem length_flatMap_sum {α β : Type} (l : List α) (f : α → List β) :
    (l.flatMap f).length = (l.map fun a => (f a).length).sum := by
  induction l with
  | nil => simp
  | cons a t ih => simp [ih]

theorem length_flatMap_const {α β : Type} (l : List α) (f : α → List β)
    (m : Nat) (h : ∀ a, (f a).length = m) :
    (l.flatMap f).length = l.length * m := by
  induction l with
  | nil => simp
  | cons a t ih =>
    simp [h, ih, Nat.succ_mul, Nat.add_comm]

theorem sum_flatMap_const {α : Type} (l : List α) (ys : List Nat) :
    (l.flatMap fun _ => ys).sum = l.length * ys.sum := by
  induction l with
  | nil => simp
  | cons a t ih => simp [ih, Nat.succ_mul, Nat.add_comm]

theorem stageJobsAux_dictGet {α : Type} (pl : Pipeline)
    (l : List (α × String × String)) (k : String) :
    dictGet (stageJobsAux pl l).2.jobPhase k = dictGet pl.jobPhase k := by
  induction l generalizing pl with
  | nil => simp [stageJobsAux]
  | cons t rest ih =>
    obtain ⟨g, ph, sn⟩ := t
    simp [stageJobsAux, Pipeline.get_jobs_by_phase, ih, dictGet_defaultGet]

theorem stageJobsAux_phases {α : Type} (pl : Pipeline)
    (l : List (α × String × String)) :
    (stageJobsAux pl l).2.phases = pl.phases := by
  induction l generalizing pl with
  | nil => simp [stageJobsAux]
  | cons t rest ih =>
    obtain ⟨g, ph, sn⟩ := t
    simp [stageJobsAux, Pipeline.get_jobs_by_phase, ih]

theorem stageJobsAux_fst {α : Type} (pl : Pipeline)
    (l : List (α × String × String)) :
    (stageJobsAux pl l).1
      = l.flatMap fun t => (dictGet pl.jobPhase t.2.1).map
          fun j => (t.1, t.2.1, t.2.2, j) := by
  induction l generalizing pl with
  | nil => simp [stageJobsAux]
  | cons t rest ih =>
    obtain ⟨g, ph, sn⟩ := t
    simp [stageJobsAux, Pipeline.get_jobs_by_phase, defaultGet_fst, ih,
          dictGet_defaultGet]

/-- C4: `get_stages` yields exactly the cartesian product of the sorted
ordering groups (outer loop, ascending unless `reverse`) with the declared
phases (inner loop, declaration order), each name `"{group}-{phase}"`; the
output length is N×M, and an empty ordering-group list yields the empty
sequence. -/
theorem C4_get_stages_product {α : Type} [LinearOrder α] (sg : α → String)
    (p : Pipeline) (l : List α) (rev : Bool) :
    (Stage.new p l rev).get_stages sg
      = (pySorted rev l).flatMap
          (fun g => p.get_phases.map fun ph => sg g ++ "-" ++ ph)
    ∧ ((Stage.new p l rev).get_stages sg).length
      = l.length * p.get_phases.length
    ∧ List.Perm (pySorted rev l) l
    ∧ (rev = false → List.Sorted (fun a b => a ≤ b) (pySorted rev l))
    ∧ (rev = true → List.Sorted (fun a b => b ≤ a) (pySorted rev l))
    ∧ (Stage.new p ([] : List α) rev).get_stages sg = [] := by
  have hperm : List.Perm (pySorted rev l) l := by
    cases rev
    · exact List.perm_insertionSort _ l
    · exact List.perm_insertionSort _ l
  have heq : (Stage.new p l rev).get_stages sg
      = (pySorted rev l).flatMap
          (fun g => p.get_phases.map fun ph => sg g ++ "-" ++ ph) := by
    simp [Stage.get_stages, Stage.get_stages_internal, Stage.new,
          List.map_flatMap, List.map_map, Function.comp_def]
  refine ⟨heq, ?_, hperm, ?_, ?_, ?_⟩
  · rw [heq, length_flatMap_const _ _ p.get_phases.length fun a => by simp,
        hperm.length_eq]
  · intro h
    subst h
    exact List.sorted_insertionSort _ l
  · intro h
    subst h
    exact List.sorted_insertionSort _ l
  · cases rev <;>
      simp [Stage.get_stages, Stage.get_stages_internal, Stage.new, pySorted]

/-- C4 witness: with groups `[2, 1]` the stored list is sorted in the chosen
direction, and over the one-phase pipeline the stage list has length 2×1. -/
theorem C4_get_stages_product_witness :
    List.Sorted (fun a b => a ≤ b) (pySorted false [2, 1])
    ∧ List.Sorted (fun a b => b ≤ a) (pySorted true [2, 1])
    ∧ ((Stage.new (Pipeline.new.add_phase "p").2 [2, 1]
          false).get_stages (fun n : Nat => toString n)).length = 2 * 1 :=
  ⟨(C4_get_stages_product (fun n : Nat => toString n)
      (Pipeline.new.add_phase "p").2 [2, 1] false).2.2.2.1 rfl,
   (C4_get_stages_product (fun n : Nat => toString n)
      (Pipeline.new.add_phase "p").2 [2, 1] true).2.2.2.2.1 rfl,
   (C4_get_stages_product (fun n : Nat => toString n)
      (Pipeline.new.add_phase "p").2 [2, 1] false).2.1⟩

/-- C5: `get_stage_jobs` yields, for each `(group, phase, stageName)` triple
of the `_get_stages` product (in that order), one tuple per job of
`get_jobs_by_phase(phase)` in insertion order; the total count is N times
the sum over declared phases of their job counts. -/
theorem C5_stage_jobs_per_pair {α : Type} [LinearOrder α] (sg : α → String)
    (p : Pipeline) (l : List α) (rev : Bool) :
    ((Stage.new p l rev).get_stage_jobs sg).1
      = ((Stage.new p l rev).get_stages_internal sg).flatMap
          (fun t => ((p.get_jobs_by_phase t.2.1).1).map
            fun j => (t.1, t.2.1, t.2.2, j))
    ∧ (((Stage.new p l rev).get_stage_jobs sg).1).length
      = l.length *
          (p.get_phases.map fun ph => ((p.get_jobs_by_phase ph).1).length).sum
    := by
  have hperm : List.Perm (pySorted rev l) l := by
    cases rev
    · exact List.perm_insertionSort _ l
    · exact List.perm_insertionSort _ l
  constructor
  · simp [Stage.get_stage_jobs, stageJobsAux_fst, Pipeline.get_jobs_by_phase,
          defaultGet_fst, Stage.new]
  · simp [Stage.get_stage_jobs, stageJobsAux_fst, Pipeline.get_jobs_by_phase,
          defaultGet_fst, Stage.get_stages_internal, Stage.new,
          Pipeline.get_phases, length_flatMap_sum, List.map_flatMap,
          List.map_map, Function.comp_def, sum_flatMap_const,
          hperm.length_eq]

/-- Replacing a stage's pipeline by one with the same declared phases and the
same per-key job lists changes neither the `get_stage_jobs` yields nor the
`get_stages` yields. -/
theorem get_stage_jobs_congr {α : Type} (sg : α → String) (s : Stage α)
    (pl' : Pipeline) (hph : pl'.phases = s.pipeline.phases)
    (hj : ∀ k, dictGet pl'.jobPhase k = dictGet s.pipeline.jobPhase k) :
    (({ s with pipeline := pl' } : Stage α).get_stage_jobs sg).1
        = (s.get_stage_jobs sg).1
    ∧ ({ s with pipeline := pl' } : Stage α).get_stages sg
        = s.get_stages sg := by
  have hint : Stage.get_stages_internal sg
        ({ s with pipeline := pl' } : Stage α)
      = Stage.get_stages_internal sg s := by
    simp [Stage.get_stages_internal, Pipeline.get_phases, hph]
  constructor
  · simp [Stage.get_stage_jobs, stageJobsAux_fst, hint, hj]
  · simp [Stage.get_stages, hint]

/-- C9: the generators are restartable — running `get_stage_jobs` a second
time on the stage as the first run left it reproduces the first run's
sequence, and `get_stages` is unaffected by a prior `get_stage_jobs` run
(the only mutation either can cause is inserting empty `defaultdict`
entries, which changes no yielded value). -/
theorem C9_generators_restartable {α : Type} (sg : α → String) (s : Stage α) :
    ((s.get_stage_jobs sg).2.get_stage_jobs sg).1 = (s.get_stage_jobs sg).1
    ∧ (s.get_stage_jobs sg).2.get_stages sg = s.get_stages sg :=
  get_stage_jobs_congr sg s
    (stageJobsAux s.pipeline (s.get_stages_internal sg)).2
    (stageJobsAux_phases _ _) (fun k => stageJobsAux_dictGet _ _ k)

/-- C10 witness: a job whose name is cached and whose phase is undeclared is
rejected with the duplicate-name error. -/
theorem C10_duplicate_name_checked_first_witness :
    ((Pipeline.mk ["x"] [] "" []).add_job (mkJob "x" "ph")).1
      = some (Err.jobException ("Duplicate Job Name: " ++ "x")) :=
  C10_duplicate_name_checked_first _ _ (by decide) (by decide)

/-- C2 counterexample: declare phases "A" then "B", add a job to "B" first
and then a job to "A".  `get_jobs` iterates `_job_phase.items()` — keyed by
the order each phase first received a job — so it yields the "B" job before
the "A" job although "A" was declared first, refuting phase-declaration
order. -/
theorem C2_declaration_order_counterexample :
    (((((Pipeline.new.add_phase "A").2.add_phase "B").2.add_job
        (mkJob "j1" "B")).2.add_job (mkJob "j2" "A")).2.get_phases
      = ["A", "B"])
    ∧ ((((Pipeline.new.add_phase "A").2.add_phase "B").2.add_job
        (mkJob "j1" "B")).2.add_job (mkJob "j2" "A")).2.get_jobs
      = [mkJob "j1" "B", mkJob "j2" "A"] := by decide

/-- C2 (amended): `get_jobs` yields all jobs across all phases grouped by
phase: it equals the concatenation, over the keys of `_job_phase` in their
stored key-insertion order (the order in which each phase first received a
job, not phase declaration order), of that phase's `get_jobs_by_phase`
sequence; within each phase the group is exactly the `get_jobs_by_phase`
sequence in job insertion order, and the whole sequence is a permutation of
the declaration-ordered concatenation. -/
theorem C2_jobs_grouped_with_insertion_order (p : Pipeline) (h : Built p) :
    p.get_jobs
      = (p.jobPhase.map Prod.fst).flatMap
          (fun k => (p.get_jobs_by_phase k).1)
    ∧ (∀ ph, p.get_jobs.filter (fun j => j.phase == ph)
        = (p.get_jobs_by_phase ph).1)
    ∧ List.Perm p.get_jobs
        (p.get_phases.flatMap fun ph => (p.get_jobs_by_phase ph).1) := by
  have hi := built_inv p h
  have h1 : ∀ ph, (p.get_jobs_by_phase ph).1 = dictGet p.jobPhase ph := by
    intro ph
    simp [Pipeline.get_jobs_by_phase, defaultGet_fst]
  refine ⟨?_, ?_, ?_⟩
  · simp only [h1]
    exact flatten_eq_keys_flatMap p.jobPhase hi.keys_nodup
  · intro ph
    rw [h1 ph]
    exact filter_phase_flatten ph p.jobPhase hi.keys_nodup hi.vals_phase
  · have h2 : (p.get_phases.flatMap fun ph => (p.get_jobs_by_phase ph).1)
        = p.get_phases.flatMap fun ph => dictGet p.jobPhase ph := by
      simp [h1]
    rw [h2]
    exact perm_decl_order p.phases hi.phases_nodup p.jobPhase
      hi.keys_nodup hi.keys_sub

/-- C2 witness: on the concrete two-phase pipeline, `get_jobs` equals the
key-insertion-ordered concatenation of the per-phase sequences, and
filtering it to phase "A" gives exactly the `get_jobs_by_phase "A"`
sequence. -/
theorem C2_jobs_grouped_with_insertion_order_witness :
    (((((Pipeline.new.add_phase "A").2.add_phase "B").2.add_job
        (mkJob "j1" "B")).2.add_job (mkJob "j2" "A")).2.get_jobs
      = (((((Pipeline.new.add_phase "A").2.add_phase "B").2.add_job
        (mkJob "j1" "B")).2.add_job
          (mkJob "j2" "A")).2.jobPhase.map Prod.fst).flatMap
        (fun k => ((((((Pipeline.new.add_phase "A").2.add_phase
          "B").2.add_job (mkJob "j1" "B")).2.add_job
            (mkJob "j2" "A")).2.get_jobs_by_phase k).1)))
    ∧ (((((Pipeline.new.add_phase "A").2.add_phase "B").2.add_job
        (mkJob "j1" "B")).2.add_job (mkJob "j2" "A")).2.get_jobs.filter
      (fun j => j.phase == "A"))
      = ((((((Pipeline.new.add_phase "A").2.add_phase "B").2.add_job
        (mkJob "j1" "B")).2.add_job
          (mkJob "j2" "A")).2.get_jobs_by_phase "A").1) :=
  ⟨(C2_jobs_grouped_with_insertion_order _
    (Built.addJob _ _
      (Built.addJob _ _
        (Built.addPhase _ _ (Built.addPhase _ _ Built.new (by decide))
          (by decide))
        (by decide))
      (by decide))).1,
   (C2_jobs_grouped_with_insertion_order _
    (Built.addJob _ _
      (Built.addJob _ _
        (Built.addPhase _ _ (Built.addPhase _ _ Built.new (by decide))
          (by decide))
        (by decide))
      (by decide))).2.1 "A"⟩

/-- C8: `get_jobs_by_phase` yields exactly the job list registered under the
phase (insertion order), and yields the empty sequence — the model is a
total function, no error — both when the phase has an empty job list and
when it was never declared. -/
theorem C8_jobs_by_phase_total (p : Pipeline) (ph : String) (h : Built p) :
    (p.get_jobs_by_phase ph).1 = dictGet p.jobPhase ph
    ∧ (ph ∉ p.get_phases → (p.get_jobs_by_phase ph).1 = [])
    ∧ (dictGet p.jobPhase ph = [] → (p.get_jobs_by_phase ph).1 = []) := by
  have hi := built_inv p h
  have h1 : (p.get_jobs_by_phase ph).1 = dictGet p.jobPhase ph := by
    simp [Pipeline.get_jobs_by_phase, defaultGet_fst]
  refine ⟨h1, fun hnp => ?_, fun hz => h1.trans hz⟩
  rw [h1]
  apply dictGet_not_key
  intro hk
  exact hnp (hi.keys_sub ph hk)

/-- C8 witness: on a pipeline with only phase "A" declared, asking for the
never-declared phase "Z" yields the empty sequence. -/
theorem C8_jobs_by_phase_total_witness :
    (((Pipeline.new.add_phase "A").2).get_jobs_by_phase "Z").1 = [] :=
  (C8_jobs_by_phase_total (Pipeline.new.add_phase "A").2 "Z"
    (Built.addPhase _ _ Built.new (by decide))).2.1 (by decide)

end DeployPipeline
